import Mathlib

/-!
# Verification of the neighborhood query of `fluent_data`

This file embeds the two nearest-neighbor query modules of the repository:

* `src/neighborhood.rs` — the public `get_neighborhood` returning the enum
  `Neighborhood::{Two, One, None}` of `NeighborDist` values;
* `src/neighbors.rs` — the private `get_neighbors` returning the tuple struct
  `Neighborhood(Option<PointDist>, Option<PointDist>)`.

Modelling conventions:

* Rust iterators over candidates are modelled as Lean `List`s consumed in order;
  `iter.next()` is pattern matching on the head, `Iterator::fold` is `List.foldl`.
* Rust `f64` distances are modelled by an abstract distance type `D` together
  with the boolean comparison `gt : D → D → Bool` standing for the `f64`
  operator `>` (which, on floats, is not a total order because of NaN).  The
  source code consults distances only through `>`, so this is exactly the
  interface it uses.  For claims about genuine distances, `D` is instantiated
  with `ℚ` and `gt` with `gtQ`, the decidable strict order of `ℚ`, which is how
  `>` behaves on ordinary (non-NaN) doubles.
* `std::mem::swap` on two local variables followed by further conditional swaps
  is modelled by shadowing `let`-bindings on pairs, mirroring the source lines.
-/

namespace FluentData

variable {α β γ P D : Type}

/-- Embeds `NeighborDist<Model, RefModel>(RefModel, f64)` from
`src/neighborhood.rs`: a reference to a neighbor (field `.0`, accessor
`coord`) and its distance from some point (field `.1`, accessor `dist`). -/
structure NeighborDist (α : Type) (D : Type) where
  coord : α
  dist : D
  deriving DecidableEq, Repr

/-- Embeds `enum Neighborhood<Model, RefModel>` from `src/neighborhood.rs`:
the two nearest neighbors of some point in space when they exist. -/
inductive Neighborhood (α : Type) (D : Type) where
  | Two : NeighborDist α D → NeighborDist α D → Neighborhood α D
  | One : NeighborDist α D → Neighborhood α D
  | None : Neighborhood α D
  deriving DecidableEq, Repr

/-- Embeds `smallest` (src/neighborhood.rs lines 132-150): find the two
nearest neighbors among three models by three conditional swaps.  Each
`if gt _ _ then (swapped) else (unchanged)` line mirrors one
`if di.1 > dj.1 { swap(&mut di, &mut dj); }` of the source. -/
def smallest (gt : D → D → Bool) (d1 d2 d3 : NeighborDist α D) :
    NeighborDist α D × NeighborDist α D :=
  let (d1, d2) := if gt d1.dist d2.dist then (d2, d1) else (d1, d2)
  let (d2, _d3) := if gt d2.dist d3.dist then (d3, d2) else (d2, d3)
  let (d1, d2) := if gt d1.dist d2.dist then (d2, d1) else (d1, d2)
  (d1, d2)

/-- Embeds `fold_others_2` (src/neighborhood.rs lines 116-129): find the two
nearest neighbors when at least two models exist.  The initial conditional
swap mirrors `if first.1 > second.1 { swap(&mut first, &mut second) }`; the
fold mirrors `others.fold((first, second), |(d1, d2), d| smallest(d1, d2, d))`. -/
def fold_others_2 (gt : D → D → Bool) (first second : NeighborDist α D)
    (others : List (NeighborDist α D)) : Neighborhood α D :=
  let (first, second) :=
    if gt first.dist second.dist then (second, first) else (first, second)
  let (d1, d2) :=
    others.foldl (fun p d => smallest gt p.1 p.2 d) (first, second)
  Neighborhood.Two d1 d2

/-- Embeds `fold_1` (src/neighborhood.rs lines 100-113): find the two nearest
neighbors when at least one model exists.  `others.next()` is the head of the
remaining list. -/
def fold_1 (gt : D → D → Bool) (first : NeighborDist α D)
    (others : List (NeighborDist α D)) : Neighborhood α D :=
  match others with
  | [] => Neighborhood.One first
  | d2 :: rest => fold_others_2 gt first d2 rest

/-- Embeds `fold_0` (src/neighborhood.rs lines 85-97): find neighbors given a
(model, distance) couples iterator.  `iter.next()` is the head of the list. -/
def fold_0 (gt : D → D → Bool) (l : List (NeighborDist α D)) :
    Neighborhood α D :=
  match l with
  | [] => Neighborhood.None
  | d1 :: rest => fold_1 gt d1 rest

/-- Embeds `get_neighborhood` (src/neighborhood.rs lines 75-82): map each
candidate `p` of the iterator to `NeighborDist(p, dist(&point, &p))` and hand
the resulting iterator to `fold_0`. -/
def get_neighborhood (gt : D → D → Bool) (l : List α) (point : P)
    (dist : P → α → D) : Neighborhood α D :=
  fold_0 gt (l.map fun p => ⟨p, dist point p⟩)

/-- The `f64` comparison `>` restricted to ordinary (non-NaN) values, modelled
on `ℚ`: the decidable strict order. -/
def gtQ (a b : ℚ) : Bool := decide (a > b)

/-- Modelled from the spec: `space::euclid_dist` is used by the tests of
`src/neighborhood.rs` but the module `space` is not under `src/`.  Per §4.1 and
§6 of the spec the default geometry is the real vector with the squared
Euclidean distance ("The distance is treated as a squared distance ...
No square roots are taken"). -/
def euclid_dist (p1 p2 : List ℚ) : ℚ :=
  ((p1.zip p2).map fun q => (q.1 - q.2) ^ 2).sum

/-- The constructor tag of a `Neighborhood`: the number of neighbors it
carries (2, 1 or 0). -/
def Neighborhood.ctor : Neighborhood α D → ℕ
  | .Two _ _ => 2
  | .One _ => 1
  | .None => 0

/-- The neighbors carried by a `Neighborhood`, as a list. -/
def Neighborhood.toList : Neighborhood α D → List (NeighborDist α D)
  | .Two a b => [a, b]
  | .One a => [a]
  | .None => []

/-- Map over the `coord` component of a `NeighborDist`, keeping the distance. -/
def NeighborDist.mapc (f : α → β) (n : NeighborDist α D) : NeighborDist β D :=
  ⟨f n.coord, n.dist⟩

/-- Map over the `coord` components of a `Neighborhood`. -/
def Neighborhood.mapc (f : α → β) : Neighborhood α D → Neighborhood β D
  | .Two a b => .Two (a.mapc f) (b.mapc f)
  | .One a => .One (a.mapc f)
  | .None => .None

namespace neighbors

/-- Embeds `PointDist<'a, Point>(&'a Point, f64)` from `src/neighbors.rs`. -/
structure PointDist (α : Type) (D : Type) where
  coord : α
  dist : D
  deriving DecidableEq, Repr

/-- Embeds `struct Neighborhood<'a, Point>(Option<PointDist>, Option<PointDist>)`
from `src/neighbors.rs`: the two nearest neighbors when they exist. -/
structure Neighborhood (α : Type) (D : Type) where
  fst : Option (PointDist α D)
  snd : Option (PointDist α D)
  deriving DecidableEq, Repr

/-- Embeds `smallest` (src/neighbors.rs lines 90-105): find the two nearest
neighbors among three centroids. -/
def smallest (gt : D → D → Bool) (d1 d2 d3 : PointDist α D) :
    PointDist α D × PointDist α D :=
  let (d1, d2) := if gt d1.dist d2.dist then (d2, d1) else (d1, d2)
  let (d2, _d3) := if gt d2.dist d3.dist then (d3, d2) else (d2, d3)
  let (d1, d2) := if gt d1.dist d2.dist then (d2, d1) else (d1, d2)
  (d1, d2)

/-- Embeds `fold_others_2` (src/neighbors.rs lines 77-87). -/
def fold_others_2 (gt : D → D → Bool) (first second : PointDist α D)
    (others : List (PointDist α D)) : Neighborhood α D :=
  let (first, second) :=
    if gt first.dist second.dist then (second, first) else (first, second)
  let (d1, d2) :=
    others.foldl (fun p d => smallest gt p.1 p.2 d) (first, second)
  Neighborhood.mk (some d1) (some d2)

/-- Embeds `fold_1` (src/neighbors.rs lines 64-74). -/
def fold_1 (gt : D → D → Bool) (first : PointDist α D)
    (others : List (PointDist α D)) : Neighborhood α D :=
  match others with
  | [] => Neighborhood.mk (some first) none
  | d2 :: rest => fold_others_2 gt first d2 rest

/-- Embeds `fold_0` (src/neighbors.rs lines 52-61). -/
def fold_0 (gt : D → D → Bool) (l : List (PointDist α D)) : Neighborhood α D :=
  match l with
  | [] => Neighborhood.mk none none
  | d1 :: rest => fold_1 gt d1 rest

/-- Embeds `get_neighbors` (src/neighbors.rs lines 45-48): map each centroid
`p` to `PointDist(p, dist(&point, p))` and hand the iterator to `fold_0`.
In `src/neighbors.rs` the query point and the centroids share one type. -/
def get_neighbors (gt : D → D → Bool) (l : List α) (point : α)
    (dist : α → α → D) : Neighborhood α D :=
  fold_0 gt (l.map fun p => ⟨p, dist point p⟩)

end neighbors

/-- Strict priority order used to express the tie-break policy on candidates
tagged with their 0-based iteration position (`coord.1`): a candidate beats
another when it is strictly nearer, or equally near and seen earlier. -/
def lexLt {β : Type} (a b : NeighborDist (ℕ × β) ℚ) : Prop :=
  a.dist < b.dist ∨ (a.dist = b.dist ∧ a.coord.1 < b.coord.1)

/-- Conversion of a `neighborhood::NeighborDist` into a
`neighbors::PointDist` with the same referent and distance. -/
def toPointDist (n : NeighborDist α D) : neighbors.PointDist α D :=
  ⟨n.coord, n.dist⟩

/-- The correspondence between the result types of the two modules:
`Neighborhood::None ↦ Neighborhood(None, None)`,
`One a ↦ Neighborhood(Some a, None)`, `Two a b ↦ Neighborhood(Some a, Some b)`. -/
def toNeighbors : Neighborhood α D → neighbors.Neighborhood α D
  | .Two a b => ⟨some (toPointDist a), some (toPointDist b)⟩
  | .One a => ⟨some (toPointDist a), none⟩
  | .None => ⟨none, none⟩

/-! ## Unfolding lemmas

The swap networks of `smallest` and `fold_others_2` are rewritten as explicit
decision trees, by case analysis on the boolean comparisons. -/

theorem smallest_eq (gt : D → D → Bool) (d1 d2 d3 : NeighborDist α D) :
    smallest gt d1 d2 d3 =
      if gt d1.dist d2.dist then
        if gt d1.dist d3.dist then
          (if gt d2.dist d3.dist then (d3, d2) else (d2, d3))
        else
          (if gt d2.dist d1.dist then (d1, d2) else (d2, d1))
      else
        if gt d2.dist d3.dist then
          (if gt d1.dist d3.dist then (d3, d1) else (d1, d3))
        else (d1, d2) := by
  cases h1 : gt d1.dist d2.dist <;> cases h2 : gt d1.dist d3.dist <;>
    cases h3 : gt d2.dist d3.dist <;> cases h4 : gt d2.dist d1.dist <;>
    simp [smallest, h1, h2, h3, h4]

theorem fold_others_2_eq (gt : D → D → Bool) (first second : NeighborDist α D)
    (others : List (NeighborDist α D)) :
    fold_others_2 gt first second others =
      Neighborhood.Two
        ((others.foldl (fun p d => smallest gt p.1 p.2 d)
          (if gt first.dist second.dist then (second, first)
           else (first, second))).1)
        ((others.foldl (fun p d => smallest gt p.1 p.2 d)
          (if gt first.dist second.dist then (second, first)
           else (first, second))).2) := by
  cases h : gt first.dist second.dist <;>
    rcases hF : List.foldl (fun p d => smallest gt p.1 p.2 d) _ others
      with ⟨x, y⟩ <;>
    simp_all [fold_others_2]

/-! ## Permutation lemmas, valid for an arbitrary comparison

`smallest` always returns two of its three arguments and discards the third,
whatever the boolean comparison does; consequently the two neighbors of a
`Two` result are two distinct occurrences of the candidate list. -/

theorem perm_shift (x a b : α) (l : List α) :
    (a :: b :: x :: l).Perm (x :: a :: b :: l) :=
  ((List.Perm.swap x b l).cons a).trans (List.Perm.swap x a (b :: l))

theorem smallest_select (gt : D → D → Bool) (d1 d2 d3 : NeighborDist α D) :
    ∃ x, [d1, d2, d3].Perm
      [(smallest gt d1 d2 d3).1, (smallest gt d1 d2 d3).2, x] := by
  rw [smallest_eq]
  split_ifs <;> first
    | exact ⟨d3, List.Perm.refl _⟩
    | exact ⟨d2, (List.Perm.swap d3 d2 []).cons d1⟩
    | exact ⟨d3, List.Perm.swap d2 d1 [d3]⟩
    | exact ⟨d1, (List.Perm.swap d2 d1 [d3]).trans
        ((List.Perm.swap d3 d1 []).cons d2)⟩
    | exact ⟨d1, (perm_shift d3 d1 d2 []).trans
        ((List.Perm.swap d2 d1 []).cons d3)⟩
    | exact ⟨d2, perm_shift d3 d1 d2 []⟩

theorem foldl_select (gt : D → D → Bool) (t : List (NeighborDist α D))
    (p : NeighborDist α D × NeighborDist α D) :
    ∃ rest, (p.1 :: p.2 :: t).Perm
      ((t.foldl (fun p d => smallest gt p.1 p.2 d) p).1 ::
       (t.foldl (fun p d => smallest gt p.1 p.2 d) p).2 :: rest) := by
  induction t generalizing p with
  | nil => exact ⟨[], List.Perm.refl _⟩
  | cons d t ih =>
    obtain ⟨x, hx⟩ := smallest_select gt p.1 p.2 d
    obtain ⟨rest, hrest⟩ := ih (smallest gt p.1 p.2 d)
    refine ⟨x :: rest, ?_⟩
    simp only [List.foldl_cons]
    exact (hx.append_right t).trans ((perm_shift _ _ _ t).trans
      ((hrest.cons x).trans (perm_shift x _ _ rest).symm))

theorem fold_others_2_select (gt : D → D → Bool)
    (first second : NeighborDist α D) (others : List (NeighborDist α D)) :
    ∃ d1 d2 rest, fold_others_2 gt first second others =
        Neighborhood.Two d1 d2 ∧
      (first :: second :: others).Perm (d1 :: d2 :: rest) := by
  rw [fold_others_2_eq]
  cases h : gt first.dist second.dist with
  | false =>
    obtain ⟨rest, hrest⟩ := foldl_select gt others (first, second)
    exact ⟨_, _, rest, rfl, hrest⟩
  | true =>
    obtain ⟨rest, hrest⟩ := foldl_select gt others (second, first)
    exact ⟨_, _, rest, rfl,
      (List.Perm.swap second first others).trans hrest⟩

/-! ## Constructor arity -/

theorem fold_0_ctor (gt : D → D → Bool) (l : List (NeighborDist α D)) :
    (fold_0 gt l).ctor = min l.length 2 := by
  match l with
  | [] => rfl
  | [d1] => rfl
  | d1 :: d2 :: rest =>
    simp only [fold_0, fold_1, fold_others_2_eq, Neighborhood.ctor,
      List.length_cons]
    omega

theorem get_neighborhood_ctor (gt : D → D → Bool) (l : List α) (q : P)
    (dist : P → α → D) :
    (get_neighborhood gt l q dist).ctor = min l.length 2 := by
  rw [get_neighborhood, fold_0_ctor, List.length_map]

/-- Every neighbor in the result of `get_neighborhood` is one of the mapped
`(candidate, distance)` pairs. -/
theorem toList_subset (gt : D → D → Bool) (l : List α) (q : P)
    (dist : P → α → D) :
    ∀ n ∈ (get_neighborhood gt l q dist).toList,
      n ∈ l.map (fun p => (⟨p, dist q p⟩ : NeighborDist α D)) := by
  match l with
  | [] => simp [get_neighborhood, fold_0, Neighborhood.toList]
  | [a] =>
    simp [get_neighborhood, fold_0, fold_1, Neighborhood.toList]
  | a :: b :: t =>
    intro n hn
    obtain ⟨d1, d2, rest, heq, hperm⟩ :=
      fold_others_2_select gt (⟨a, dist q a⟩ : NeighborDist α D)
        ⟨b, dist q b⟩ (t.map fun p => ⟨p, dist q p⟩)
    have hres : get_neighborhood gt (a :: b :: t) q dist =
        Neighborhood.Two d1 d2 := by
      simpa [get_neighborhood, fold_0, fold_1] using heq
    rw [hres] at hn
    have hn2 : n = d1 ∨ n = d2 := by
      simpa [Neighborhood.toList] using hn
    have hmem : n ∈ d1 :: d2 :: rest := by
      rcases hn2 with h | h
      · exact h ▸ List.mem_cons_self _ _
      · exact h ▸ List.mem_cons_of_mem _ (List.mem_cons_self _ _)
    have := hperm.mem_iff.mpr hmem
    simpa [List.map_cons] using this

/-- From a permutation exhibiting two occurrences at the head, extract two
distinct positions of the original list. -/
theorem exists_distinct_get {α : Type} {xs : List α} {a b : α} {ys : List α}
    (h : xs.Perm (a :: b :: ys)) :
    ∃ i j : Fin xs.length, i ≠ j ∧ xs.get i = a ∧ xs.get j = b := by
  induction xs generalizing ys with
  | nil => exact absurd h.length_eq (by simp)
  | cons x t ih =>
    by_cases hxa : x = a
    · subst hxa
      have ht : t.Perm (b :: ys) := h.cons_inv
      have hb : b ∈ t := ht.mem_iff.mpr (List.mem_cons_self b ys)
      obtain ⟨j, hj⟩ := List.get_of_mem hb
      refine ⟨⟨0, Nat.succ_pos _⟩, j.succ,
        fun hc => Fin.succ_ne_zero j hc.symm, rfl, ?_⟩
      rw [List.get_cons_succ']
      exact hj
    · by_cases hxb : x = b
      · subst hxb
        have h2 : (x :: t).Perm (x :: a :: ys) :=
          h.trans (List.Perm.swap x a ys)
        have ht : t.Perm (a :: ys) := h2.cons_inv
        have ha : a ∈ t := ht.mem_iff.mpr (List.mem_cons_self a ys)
        obtain ⟨i, hi⟩ := List.get_of_mem ha
        refine ⟨i.succ, ⟨0, Nat.succ_pos _⟩, Fin.succ_ne_zero i, ?_, rfl⟩
        rw [List.get_cons_succ']
        exact hi
      · classical
        have hx : x ∈ a :: b :: ys := h.mem_iff.mp (List.mem_cons_self x t)
        have hxy : x ∈ ys := by
          simpa [List.mem_cons, hxa, hxb] using hx
        have hys : ys.Perm (x :: ys.erase x) := List.perm_cons_erase hxy
        have h2 : (x :: t).Perm (x :: a :: b :: ys.erase x) :=
          (h.trans ((hys.cons b).cons a)).trans (perm_shift x a b _)
        obtain ⟨i, j, hij, hi, hj⟩ := ih h2.cons_inv
        refine ⟨i.succ, j.succ, fun hc => hij (Fin.succ_inj.mp hc), ?_, ?_⟩
        · rw [List.get_cons_succ']
          exact hi
        · rw [List.get_cons_succ']
          exact hj

/-! ## The tie-break invariant

Candidates are tagged with their 0-based iteration position; `lexLt` is the
priority the streaming pass maintains: strictly nearer wins, and at equal
distance the earlier-seen candidate wins. -/

theorem lexLt_trans {β : Type} {a b c : NeighborDist (ℕ × β) ℚ}
    (h1 : lexLt a b) (h2 : lexLt b c) : lexLt a c := by
  rcases h1 with h1 | ⟨h1, h1i⟩ <;> rcases h2 with h2 | ⟨h2, h2i⟩
  · exact Or.inl (h1.trans h2)
  · exact Or.inl (h2 ▸ h1)
  · exact Or.inl (h1 ▸ h2)
  · exact Or.inr ⟨h1.trans h2, h1i.trans h2i⟩

theorem lexLt_asymm {β : Type} {a b : NeighborDist (ℕ × β) ℚ}
    (h1 : lexLt a b) (h2 : lexLt b a) : False := by
  rcases h1 with h1 | ⟨h1, h1i⟩ <;> rcases h2 with h2 | ⟨h2, h2i⟩ <;>
    linarith

theorem lexLt_le_dist {β : Type} {a b : NeighborDist (ℕ × β) ℚ}
    (h : lexLt a b) : a.dist ≤ b.dist := by
  rcases h with h | ⟨h, _⟩
  · exact le_of_lt h
  · exact le_of_eq h

theorem smallest_lex {β : Type} (p1 p2 d : NeighborDist (ℕ × β) ℚ)
    (h12 : lexLt p1 p2) (h1d : p1.coord.1 < d.coord.1)
    (h2d : p2.coord.1 < d.coord.1) :
    ∃ x, [p1, p2, d].Perm
        [(smallest gtQ p1 p2 d).1, (smallest gtQ p1 p2 d).2, x] ∧
      lexLt (smallest gtQ p1 p2 d).1 (smallest gtQ p1 p2 d).2 ∧
      lexLt (smallest gtQ p1 p2 d).2 x := by
  have hn12 : gtQ p1.dist p2.dist = false := by
    simp only [gtQ, decide_eq_false_iff_not, not_lt]
    exact lexLt_le_dist h12
  rw [smallest_eq, hn12]
  cases h23 : gtQ p2.dist d.dist with
  | false =>
    have h2d' : p2.dist ≤ d.dist := by
      simpa [gtQ, not_lt] using h23
    refine ⟨d, List.Perm.refl _, h12, ?_⟩
    rcases lt_or_eq_of_le h2d' with h | h
    · exact Or.inl h
    · exact Or.inr ⟨h, h2d⟩
  | true =>
    have h2d' : d.dist < p2.dist := by simpa [gtQ] using h23
    cases h13 : gtQ p1.dist d.dist with
    | true =>
      have h1d' : d.dist < p1.dist := by simpa [gtQ] using h13
      exact ⟨p2, perm_shift d p1 p2 [], Or.inl h1d', h12⟩
    | false =>
      have h1d' : p1.dist ≤ d.dist := by
        simpa [gtQ, not_lt] using h13
      refine ⟨p2, (List.Perm.swap d p2 []).cons p1, ?_, Or.inl h2d'⟩
      rcases lt_or_eq_of_le h1d' with h | h
      · exact Or.inl h
      · exact Or.inr ⟨h, h1d⟩

theorem foldl_lex {β : Type} (t : List (NeighborDist (ℕ × β) ℚ))
    (p : NeighborDist (ℕ × β) ℚ × NeighborDist (ℕ × β) ℚ)
    (hp : lexLt p.1 p.2)
    (hlt : ∀ c ∈ t, p.1.coord.1 < c.coord.1 ∧ p.2.coord.1 < c.coord.1)
    (hpw : t.Pairwise fun a b => a.coord.1 < b.coord.1) :
    ∃ rest,
      (p.1 :: p.2 :: t).Perm
        ((t.foldl (fun p d => smallest gtQ p.1 p.2 d) p).1 ::
         (t.foldl (fun p d => smallest gtQ p.1 p.2 d) p).2 :: rest) ∧
      lexLt (t.foldl (fun p d => smallest gtQ p.1 p.2 d) p).1
        (t.foldl (fun p d => smallest gtQ p.1 p.2 d) p).2 ∧
      ∀ c ∈ rest, lexLt (t.foldl (fun p d => smallest gtQ p.1 p.2 d) p).2 c := by
  induction t generalizing p with
  | nil => exact ⟨[], List.Perm.refl _, hp, by simp⟩
  | cons d t ih =>
    obtain ⟨x, hxperm, hq12, hq2x⟩ :=
      smallest_lex p.1 p.2 d hp (hlt d (List.mem_cons_self d t)).1
        (hlt d (List.mem_cons_self d t)).2
    have hdlt : ∀ c ∈ t, d.coord.1 < c.coord.1 :=
      (List.pairwise_cons.mp hpw).1
    have hm1 : (smallest gtQ p.1 p.2 d).1 = p.1 ∨
        (smallest gtQ p.1 p.2 d).1 = p.2 ∨
        (smallest gtQ p.1 p.2 d).1 = d := by
      simpa using hxperm.mem_iff.mpr (List.mem_cons_self _ _)
    have hm2 : (smallest gtQ p.1 p.2 d).2 = p.1 ∨
        (smallest gtQ p.1 p.2 d).2 = p.2 ∨
        (smallest gtQ p.1 p.2 d).2 = d := by
      simpa using hxperm.mem_iff.mpr
        (List.mem_cons_of_mem _ (List.mem_cons_self _ _))
    have hlt' : ∀ c ∈ t,
        (smallest gtQ p.1 p.2 d).1.coord.1 < c.coord.1 ∧
        (smallest gtQ p.1 p.2 d).2.coord.1 < c.coord.1 := by
      intro c hc
      constructor
      · rcases hm1 with h | h | h <;> rw [h]
        · exact (hlt c (List.mem_cons_of_mem d hc)).1
        · exact (hlt c (List.mem_cons_of_mem d hc)).2
        · exact hdlt c hc
      · rcases hm2 with h | h | h <;> rw [h]
        · exact (hlt c (List.mem_cons_of_mem d hc)).1
        · exact (hlt c (List.mem_cons_of_mem d hc)).2
        · exact hdlt c hc
    obtain ⟨rest, hperm2, hF12, hFr⟩ :=
      ih (smallest gtQ p.1 p.2 d) hq12 hlt' (List.pairwise_cons.mp hpw).2
    simp only [List.foldl_cons]
    refine ⟨x :: rest, ?_, hF12, ?_⟩
    · exact (hxperm.append_right t).trans ((perm_shift _ _ _ t).trans
        ((hperm2.cons x).trans (perm_shift x _ _ rest).symm))
    · intro c hc
      rcases List.mem_cons.mp hc with hcx | hcr
      · subst hcx
        have hq2mem : (smallest gtQ p.1 p.2 d).2 =
              (t.foldl (fun p d => smallest gtQ p.1 p.2 d)
                (smallest gtQ p.1 p.2 d)).1 ∨
            (smallest gtQ p.1 p.2 d).2 =
              (t.foldl (fun p d => smallest gtQ p.1 p.2 d)
                (smallest gtQ p.1 p.2 d)).2 ∨
            (smallest gtQ p.1 p.2 d).2 ∈ rest := by
          simpa using hperm2.mem_iff.mp
            (List.mem_cons_of_mem _ (List.mem_cons_self _ _))
        rcases hq2mem with h | h | h
        · exfalso
          have hq1mem : (smallest gtQ p.1 p.2 d).1 =
                (t.foldl (fun p d => smallest gtQ p.1 p.2 d)
                  (smallest gtQ p.1 p.2 d)).1 ∨
              (smallest gtQ p.1 p.2 d).1 =
                (t.foldl (fun p d => smallest gtQ p.1 p.2 d)
                  (smallest gtQ p.1 p.2 d)).2 ∨
              (smallest gtQ p.1 p.2 d).1 ∈ rest := by
            simpa using hperm2.mem_iff.mp (List.mem_cons_self _ _)
          rcases hq1mem with h' | h' | h'
          · rw [h, h'] at hq12
            exact lexLt_asymm hq12 hq12
          · rw [h, h'] at hq12
            exact lexLt_asymm hq12 hF12
          · have := lexLt_trans (hFr _ h') hq12
            rw [h] at this
            exact lexLt_asymm this hF12
        · rw [← h]
          exact hq2x
        · exact lexLt_trans (hFr _ h) hq2x
      · exact hFr c hcr

theorem fold_others_2_lex {β : Type}
    (first second : NeighborDist (ℕ × β) ℚ)
    (others : List (NeighborDist (ℕ × β) ℚ))
    (hpw : (first :: second :: others).Pairwise
      fun a b => a.coord.1 < b.coord.1) :
    ∃ d1 d2 rest, fold_others_2 gtQ first second others =
        Neighborhood.Two d1 d2 ∧
      (first :: second :: others).Perm (d1 :: d2 :: rest) ∧
      lexLt d1 d2 ∧ ∀ c ∈ rest, lexLt d2 c := by
  have hf := List.pairwise_cons.mp hpw
  have hs := List.pairwise_cons.mp hf.2
  have hfs : first.coord.1 < second.coord.1 :=
    hf.1 second (List.mem_cons_self _ _)
  rw [fold_others_2_eq]
  cases h : gtQ first.dist second.dist with
  | false =>
    have hle : first.dist ≤ second.dist := by
      simpa [gtQ, not_lt] using h
    have hp : lexLt first second := by
      rcases lt_or_eq_of_le hle with h' | h'
      · exact Or.inl h'
      · exact Or.inr ⟨h', hfs⟩
    obtain ⟨rest, h1, h2, h3⟩ := foldl_lex others (first, second) hp
      (fun c hc => ⟨hf.1 c (List.mem_cons_of_mem _ hc), hs.1 c hc⟩) hs.2
    exact ⟨_, _, rest, rfl, h1, h2, h3⟩
  | true =>
    have hlt : second.dist < first.dist := by simpa [gtQ] using h
    obtain ⟨rest, h1, h2, h3⟩ := foldl_lex others (second, first)
      (Or.inl hlt)
      (fun c hc => ⟨hs.1 c hc, hf.1 c (List.mem_cons_of_mem _ hc)⟩) hs.2
    exact ⟨_, _, rest, rfl,
      (List.Perm.swap second first others).trans h1, h2, h3⟩

theorem enumFrom_pairwise_fst {α : Type} (n : ℕ) (l : List α) :
    (l.enumFrom n).Pairwise fun a b => a.1 < b.1 := by
  induction l generalizing n with
  | nil => simp
  | cons x t ih =>
    refine List.Pairwise.cons ?_ (ih (n + 1))
    rintro ⟨i, c⟩ hc
    have : n + 1 ≤ i :=
      (List.mk_mem_enumFrom_iff_le_and_getElem?_sub.mp hc).1
    omega

/-- Master lemma for the tagged run of `get_neighborhood`: on a list of at
least two candidates tagged with their iteration positions, the result is
`Two` of the two `lexLt`-least items, and every discarded item is
`lexLt`-beaten by the second one. -/
theorem get_neighborhood_enum_master {α P : Type} (l : List α) (q : P)
    (dist : P → α → ℚ) (h : 2 ≤ l.length) :
    ∃ n1 n2 rest,
      get_neighborhood gtQ l.enum q (fun p c => dist p c.2) =
        Neighborhood.Two n1 n2 ∧
      (l.enum.map fun c =>
        (⟨c, dist q c.2⟩ : NeighborDist (ℕ × α) ℚ)).Perm (n1 :: n2 :: rest) ∧
      lexLt n1 n2 ∧ ∀ c ∈ rest, lexLt n2 c := by
  match l with
  | [] => simp at h
  | [a] => simp at h
  | a :: b :: t =>
    have henum : (a :: b :: t).enum =
        (0, a) :: (1, b) :: t.enumFrom 2 := by
      simp [List.enum_cons, List.enumFrom]
    have hpw0 : ((a :: b :: t).enum.map fun c =>
        (⟨c, dist q c.2⟩ : NeighborDist (ℕ × α) ℚ)).Pairwise
        fun a b => a.coord.1 < b.coord.1 := by
      exact List.Pairwise.map _ (fun x y hxy => hxy)
        (enumFrom_pairwise_fst 0 (a :: b :: t))
    rw [henum] at hpw0 ⊢
    simp only [List.map_cons] at hpw0
    obtain ⟨d1, d2, rest, heq, hperm, hlex, hrest⟩ :=
      fold_others_2_lex (⟨(0, a), dist q a⟩ : NeighborDist (ℕ × α) ℚ)
        ⟨(1, b), dist q b⟩ ((t.enumFrom 2).map fun c => ⟨c, dist q c.2⟩)
        hpw0
    refine ⟨d1, d2, rest, ?_, ?_, hlex, hrest⟩
    · simpa [get_neighborhood, fold_0, fold_1] using heq
    · simpa [List.map_cons] using hperm

/-! ## Projecting the tagged run back to the plain run

`smallest` and the folds only inspect distances, so mapping the `coord`
components commutes with the whole query. -/

theorem smallest_mapc (gt : D → D → Bool) (f : α → β)
    (a b c : NeighborDist α D) :
    smallest gt (a.mapc f) (b.mapc f) (c.mapc f) =
      ((smallest gt a b c).1.mapc f, (smallest gt a b c).2.mapc f) := by
  rw [smallest_eq, smallest_eq]
  simp only [NeighborDist.mapc]
  split_ifs <;> rfl

theorem foldl_mapc (gt : D → D → Bool) (f : α → β)
    (t : List (NeighborDist α D)) (p1 p2 : NeighborDist α D) :
    (t.map fun n => n.mapc f).foldl (fun p d => smallest gt p.1 p.2 d)
        (p1.mapc f, p2.mapc f) =
      ((t.foldl (fun p d => smallest gt p.1 p.2 d) (p1, p2)).1.mapc f,
       (t.foldl (fun p d => smallest gt p.1 p.2 d) (p1, p2)).2.mapc f) := by
  induction t generalizing p1 p2 with
  | nil => rfl
  | cons d t ih =>
    simp only [List.map_cons, List.foldl_cons]
    rw [smallest_mapc, ih]

theorem fold_0_mapc (gt : D → D → Bool) (f : α → β)
    (l : List (NeighborDist α D)) :
    fold_0 gt (l.map fun n => n.mapc f) = (fold_0 gt l).mapc f := by
  match l with
  | [] => rfl
  | [d] => rfl
  | a :: b :: t =>
    simp only [List.map_cons, fold_0, fold_1, fold_others_2_eq]
    have hc : gt (a.mapc f).dist (b.mapc f).dist = gt a.dist b.dist := rfl
    rw [hc]
    cases h : gt a.dist b.dist with
    | true =>
      rw [show (if (true : Bool) = true then (b.mapc f, a.mapc f)
            else (a.mapc f, b.mapc f)) = (b.mapc f, a.mapc f) from rfl,
        show (if (true : Bool) = true then (b, a) else (a, b)) = (b, a)
          from rfl, foldl_mapc, Neighborhood.mapc]
    | false =>
      rw [show (if (false : Bool) = true then (b.mapc f, a.mapc f)
            else (a.mapc f, b.mapc f)) = (a.mapc f, b.mapc f) from rfl,
        show (if (false : Bool) = true then (b, a) else (a, b)) = (a, b)
          from rfl, foldl_mapc, Neighborhood.mapc]

theorem get_neighborhood_enum_eq {α P : Type} (gt : D → D → Bool)
    (l : List α) (q : P) (dist : P → α → D) :
    get_neighborhood gt l q dist =
      (get_neighborhood gt l.enum q (fun p c => dist p c.2)).mapc
        Prod.snd := by
  rw [get_neighborhood, get_neighborhood, ← fold_0_mapc]
  congr 1
  rw [List.map_map]
  conv_lhs => rw [← List.enumFrom_map_snd 0 l]
  rw [List.map_map]
  rfl


/-! ## Equivalence of the two modules -/

theorem neighbors_smallest_eq (gt : D → D → Bool)
    (d1 d2 d3 : neighbors.PointDist α D) :
    neighbors.smallest gt d1 d2 d3 =
      if gt d1.dist d2.dist then
        if gt d1.dist d3.dist then
          (if gt d2.dist d3.dist then (d3, d2) else (d2, d3))
        else
          (if gt d2.dist d1.dist then (d1, d2) else (d2, d1))
      else
        if gt d2.dist d3.dist then
          (if gt d1.dist d3.dist then (d3, d1) else (d1, d3))
        else (d1, d2) := by
  cases h1 : gt d1.dist d2.dist <;> cases h2 : gt d1.dist d3.dist <;>
    cases h3 : gt d2.dist d3.dist <;> cases h4 : gt d2.dist d1.dist <;>
    simp [neighbors.smallest, h1, h2, h3, h4]

theorem neighbors_fold_others_2_eq (gt : D → D → Bool)
    (first second : neighbors.PointDist α D)
    (others : List (neighbors.PointDist α D)) :
    neighbors.fold_others_2 gt first second others =
      neighbors.Neighborhood.mk
        (some ((others.foldl (fun p d => neighbors.smallest gt p.1 p.2 d)
          (if gt first.dist second.dist then (second, first)
           else (first, second))).1))
        (some ((others.foldl (fun p d => neighbors.smallest gt p.1 p.2 d)
          (if gt first.dist second.dist then (second, first)
           else (first, second))).2)) := by
  cases h : gt first.dist second.dist <;>
    rcases hF : List.foldl (fun p d => neighbors.smallest gt p.1 p.2 d) _
      others with ⟨x, y⟩ <;>
    simp_all [neighbors.fold_others_2]

theorem smallest_toPointDist (gt : D → D → Bool) (a b c : NeighborDist α D) :
    neighbors.smallest gt (toPointDist a) (toPointDist b) (toPointDist c) =
      (toPointDist (smallest gt a b c).1,
       toPointDist (smallest gt a b c).2) := by
  rw [smallest_eq, neighbors_smallest_eq]
  simp only [toPointDist]
  split_ifs <;> rfl

theorem foldl_toPointDist (gt : D → D → Bool) (t : List (NeighborDist α D))
    (p1 p2 : NeighborDist α D) :
    (t.map toPointDist).foldl (fun p d => neighbors.smallest gt p.1 p.2 d)
        (toPointDist p1, toPointDist p2) =
      (toPointDist ((t.foldl (fun p d => smallest gt p.1 p.2 d) (p1, p2)).1),
       toPointDist
        ((t.foldl (fun p d => smallest gt p.1 p.2 d) (p1, p2)).2)) := by
  induction t generalizing p1 p2 with
  | nil => rfl
  | cons d t ih =>
    simp only [List.map_cons, List.foldl_cons]
    rw [smallest_toPointDist, ih]

theorem fold_others_2_toPointDist (gt : D → D → Bool)
    (f s : NeighborDist α D) (o : List (NeighborDist α D)) :
    neighbors.fold_others_2 gt (toPointDist f) (toPointDist s)
        (o.map toPointDist) =
      toNeighbors (fold_others_2 gt f s o) := by
  rw [fold_others_2_eq, neighbors_fold_others_2_eq]
  have hc : gt (toPointDist f).dist (toPointDist s).dist =
      gt f.dist s.dist := rfl
  rw [hc]
  cases h : gt f.dist s.dist with
  | true =>
    rw [show (if (true : Bool) = true
          then (toPointDist s, toPointDist f)
          else (toPointDist f, toPointDist s)) =
        (toPointDist s, toPointDist f) from rfl,
      show (if (true : Bool) = true then (s, f) else (f, s)) = (s, f)
        from rfl, foldl_toPointDist]
    rfl
  | false =>
    rw [show (if (false : Bool) = true
          then (toPointDist s, toPointDist f)
          else (toPointDist f, toPointDist s)) =
        (toPointDist f, toPointDist s) from rfl,
      show (if (false : Bool) = true then (s, f) else (f, s)) = (f, s)
        from rfl, foldl_toPointDist]
    rfl

/-- C7: the public `get_neighborhood` of module `neighborhood` and the
private `get_neighbors` of module `neighbors` compute the same answer:
`Neighborhood::None` corresponds to `Neighborhood(None, None)`, `One a` to
`Neighborhood(Some a, None)` and `Two a b` to
`Neighborhood(Some a, Some b)`, with identical candidates and distances. -/
theorem get_neighbors_refines_get_neighborhood (gt : D → D → Bool)
    (l : List α) (q : α) (dist : α → α → D) :
    neighbors.get_neighbors gt l q dist =
      toNeighbors (get_neighborhood gt l q dist) := by
  match l with
  | [] => rfl
  | [a] => rfl
  | a :: b :: t =>
    have hmap : (t.map fun p => (⟨p, dist q p⟩ : neighbors.PointDist α D)) =
        (t.map fun p => (⟨p, dist q p⟩ : NeighborDist α D)).map
          toPointDist := by
      rw [List.map_map]
      rfl
    simp only [neighbors.get_neighbors, get_neighborhood, List.map_cons,
      neighbors.fold_0, fold_0, neighbors.fold_1, fold_1]
    rw [hmap]
    exact fold_others_2_toPointDist gt (⟨a, dist q a⟩ : NeighborDist α D)
      (⟨b, dist q b⟩ : NeighborDist α D)
      (t.map fun p => (⟨p, dist q p⟩ : NeighborDist α D))

/-! ## Claims -/

/-- C2: for every comparison, distance function and query point, and every
finite candidate list of size `n`, `get_neighborhood` returns the `None`
variant iff `n = 0`, the `One` variant iff `n = 1`, and the `Two` variant iff
`n ≥ 2`. -/
theorem get_neighborhood_variant_iff_size (gt : D → D → Bool) (l : List α)
    (q : P) (dist : P → α → D) :
    (get_neighborhood gt l q dist = Neighborhood.None ↔ l.length = 0) ∧
    ((∃ n, get_neighborhood gt l q dist = Neighborhood.One n) ↔
      l.length = 1) ∧
    ((∃ n1 n2, get_neighborhood gt l q dist = Neighborhood.Two n1 n2) ↔
      2 ≤ l.length) := by
  match l with
  | [] => simp [get_neighborhood, fold_0]
  | [a] => simp [get_neighborhood, fold_0, fold_1]
  | a :: b :: t =>
    refine ⟨?_, ?_, ?_⟩ <;>
      simp [get_neighborhood, fold_0, fold_1, fold_others_2_eq]

/-- C10: the variant of the result of `get_neighborhood` depends only on the
number of candidates: it is always `min n 2` where `n` is the list length
(in particular the query, being a total function, always returns a value),
so two runs over the same candidate list — with arbitrary distance types,
arbitrary boolean comparisons (covering NaN behavior of `f64`), arbitrary
query points and arbitrary distance functions — produce the same
constructor. -/
theorem get_neighborhood_ctor_only_length {D₁ D₂ P₁ P₂ : Type}
    (gt₁ : D₁ → D₁ → Bool) (gt₂ : D₂ → D₂ → Bool) (l : List α)
    (q₁ : P₁) (q₂ : P₂) (dist₁ : P₁ → α → D₁) (dist₂ : P₂ → α → D₂) :
    (get_neighborhood gt₁ l q₁ dist₁).ctor = min l.length 2 ∧
    (get_neighborhood gt₁ l q₁ dist₁).ctor =
      (get_neighborhood gt₂ l q₂ dist₂).ctor := by
  refine ⟨get_neighborhood_ctor _ _ _ _, ?_⟩
  rw [get_neighborhood_ctor, get_neighborhood_ctor]

/-- C8: `get_neighborhood` is deterministic: two runs on the same comparison,
query point, distance function and candidate sequence (in the same iteration
order) return equal results. -/
theorem get_neighborhood_deterministic (gt₁ gt₂ : D → D → Bool)
    (l₁ l₂ : List α) (q₁ q₂ : P) (dist₁ dist₂ : P → α → D)
    (hg : gt₁ = gt₂) (hl : l₁ = l₂) (hq : q₁ = q₂) (hd : dist₁ = dist₂) :
    get_neighborhood gt₁ l₁ q₁ dist₁ = get_neighborhood gt₂ l₂ q₂ dist₂ := by
  subst hg hl hq hd; rfl

/-- Witness for C8 at a concrete input. -/
theorem get_neighborhood_deterministic_witness :
    get_neighborhood gtQ [(1 : ℚ), 2] (0 : ℚ) (fun q p => (q - p) ^ 2) =
      get_neighborhood gtQ [(1 : ℚ), 2] (0 : ℚ) (fun q p => (q - p) ^ 2) :=
  get_neighborhood_deterministic gtQ gtQ _ _ _ _ _ _ rfl rfl rfl rfl

/-- C5: with the squared Euclidean distance, for candidate centers
`[[1,1],[3.5,-1.6],[2.4,4],[-0.5,1]]` and query point `[0,0]`,
`get_neighborhood` returns `Two` with first neighbor `[-0.5,1]` at distance
`1.25` and second neighbor `[1,1]` at distance `2`. -/
theorem get_neighborhood_example :
    get_neighborhood gtQ
        [[(1 : ℚ), 1], [7/2, -8/5], [12/5, 4], [-1/2, 1]]
        [(0 : ℚ), 0] euclid_dist =
      Neighborhood.Two ⟨[-1/2, 1], 5/4⟩ ⟨[1, 1], 2⟩ := by
  norm_num [get_neighborhood, fold_0, fold_1, fold_others_2, smallest, gtQ,
    euclid_dist, List.foldl]

/-- C9: `get_neighborhood` never fabricates a neighbor: every `NeighborDist`
of the result refers to an element of the input candidate list, and in the
`Two` case the two neighbors come from two distinct positions of the list. -/
theorem get_neighborhood_no_fabrication (gt : D → D → Bool) (l : List α)
    (q : P) (dist : P → α → D) :
    (∀ n ∈ (get_neighborhood gt l q dist).toList, n.coord ∈ l) ∧
    (∀ n1 n2, get_neighborhood gt l q dist = Neighborhood.Two n1 n2 →
      ∃ i j : Fin l.length, i ≠ j ∧
        n1.coord = l.get i ∧ n2.coord = l.get j) := by
  constructor
  · intro n hn
    have := toList_subset gt l q dist n hn
    obtain ⟨p, hp, hpe⟩ := List.mem_map.mp this
    simpa [← hpe] using hp
  · intro n1 n2 hres
    match l with
    | [] => simp [get_neighborhood, fold_0] at hres
    | [a] => simp [get_neighborhood, fold_0, fold_1] at hres
    | a :: b :: t =>
      obtain ⟨d1, d2, rest, heq, hperm⟩ :=
        fold_others_2_select gt (⟨a, dist q a⟩ : NeighborDist α D)
          ⟨b, dist q b⟩ (t.map fun p => ⟨p, dist q p⟩)
      have hres2 : get_neighborhood gt (a :: b :: t) q dist =
          Neighborhood.Two d1 d2 := by
        simpa [get_neighborhood, fold_0, fold_1] using heq
      rw [hres2] at hres
      obtain ⟨he1, he2⟩ := Neighborhood.Two.inj hres.symm
      subst he1 he2
      have hperm2 : ((a :: b :: t).map
          (fun p => (⟨p, dist q p⟩ : NeighborDist α D))).Perm
          (n1 :: n2 :: rest) := by
        simpa [List.map_cons] using hperm
      obtain ⟨i, j, hij, hi, hj⟩ := exists_distinct_get hperm2
      have hlen : ((a :: b :: t).map
          (fun p => (⟨p, dist q p⟩ : NeighborDist α D))).length =
          (a :: b :: t).length := List.length_map _ _
      refine ⟨⟨i.val, hlen ▸ i.isLt⟩, ⟨j.val, hlen ▸ j.isLt⟩,
        fun hc => hij (by
          apply Fin.ext
          have hv := congrArg
            (fun z : Fin (a :: b :: t).length => z.val) hc
          simpa using hv),
        ?_, ?_⟩
      · rw [List.get_eq_getElem] at hi ⊢
        rw [List.getElem_map] at hi
        rw [← hi]
      · rw [List.get_eq_getElem] at hj ⊢
        rw [List.getElem_map] at hj
        rw [← hj]

/-- Witness for C9 at a concrete input. -/
theorem get_neighborhood_no_fabrication_witness :
    (⟨(3 : ℚ), 3⟩ : NeighborDist ℚ ℚ).coord ∈ [(3 : ℚ)] :=
  (get_neighborhood_no_fabrication gtQ [(3 : ℚ)] (0 : ℚ) (fun _ p => p)).1
    ⟨3, 3⟩ (by simp [get_neighborhood, fold_0, fold_1, Neighborhood.toList])

/-- C6: every `NeighborDist` in the result of `get_neighborhood` carries
exactly the distance computed by the supplied distance function for its own
candidate; in particular, for a one-element candidate list the result is
`One ⟨a, dist q a⟩`. -/
theorem get_neighborhood_dist_faithful (gt : D → D → Bool) (q : P)
    (dist : P → α → D) :
    (∀ (l : List α) n, n ∈ (get_neighborhood gt l q dist).toList →
      n.dist = dist q n.coord) ∧
    (∀ a : α, get_neighborhood gt [a] q dist =
      Neighborhood.One ⟨a, dist q a⟩) := by
  constructor
  · intro l n hn
    obtain ⟨p, _, hpe⟩ := List.mem_map.mp (toList_subset gt l q dist n hn)
    rw [← hpe]
  · intro a; rfl

/-- C3: `smallest(d1, d2, d3)` returns the two of the three with the
smallest distances, ordered ascending by distance; `x` is the discarded
third one.  The boolean comparisons cover all 6 relative orderings of the
three distance values. -/
theorem smallest_two_smallest (d1 d2 d3 : NeighborDist α ℚ) :
    ∃ x, [d1, d2, d3].Perm
        [(smallest gtQ d1 d2 d3).1, (smallest gtQ d1 d2 d3).2, x] ∧
      (smallest gtQ d1 d2 d3).1.dist ≤ (smallest gtQ d1 d2 d3).2.dist ∧
      (smallest gtQ d1 d2 d3).2.dist ≤ x.dist := by
  rw [smallest_eq]
  simp only [gtQ, decide_eq_true_eq]
  split_ifs with h1 h2 h3 h4 h5 h6 <;>
    first
      | exact ⟨d3, List.Perm.refl _, by linarith, by linarith⟩
      | exact ⟨d2, (List.Perm.swap d3 d2 []).cons d1, by linarith, by linarith⟩
      | exact ⟨d3, List.Perm.swap d2 d1 [d3], by linarith, by linarith⟩
      | exact ⟨d1, (List.Perm.swap d2 d1 [d3]).trans
          ((List.Perm.swap d3 d1 []).cons d2), by linarith, by linarith⟩
      | exact ⟨d1, (perm_shift d3 d1 d2 []).trans
          ((List.Perm.swap d2 d1 []).cons d3), by linarith, by linarith⟩
      | exact ⟨d2, perm_shift d3 d1 d2 [], by linarith, by linarith⟩

/-- C4: ties are broken by iteration order, first-seen wins.  Candidates are
tagged with their 0-based iteration position (`coord.1`); the result on at
least two candidates is `Two n1 n2` with `n1, n2, rest` partitioning the
tagged candidates, and whenever two candidates are at equal distance the one
seen earlier is the one kept, in the nearer position: `n1` precedes `n2` on
ties, and each kept candidate precedes every equally-distant discarded one. -/
theorem get_neighborhood_tie_break {α P : Type} (l : List α) (q : P)
    (dist : P → α → ℚ) (h : 2 ≤ l.length) :
    ∃ n1 n2 rest,
      get_neighborhood gtQ l.enum q (fun p c => dist p c.2) =
        Neighborhood.Two n1 n2 ∧
      (l.enum.map fun c =>
        (⟨c, dist q c.2⟩ : NeighborDist (ℕ × α) ℚ)).Perm (n1 :: n2 :: rest) ∧
      n1.dist ≤ n2.dist ∧
      (n1.dist = n2.dist → n1.coord.1 < n2.coord.1) ∧
      ∀ c ∈ rest, n2.dist ≤ c.dist ∧
        (c.dist = n1.dist → n1.coord.1 < c.coord.1) ∧
        (c.dist = n2.dist → n2.coord.1 < c.coord.1) := by
  obtain ⟨n1, n2, rest, heq, hperm, hlex, hrest⟩ :=
    get_neighborhood_enum_master l q dist h
  refine ⟨n1, n2, rest, heq, hperm, lexLt_le_dist hlex, ?_, ?_⟩
  · intro he
    rcases hlex with h' | ⟨_, h'⟩
    · exact absurd he (ne_of_lt h')
    · exact h'
  · intro c hc
    have hl2c := hrest c hc
    refine ⟨lexLt_le_dist hl2c, ?_, ?_⟩
    · intro he
      have h12 : n1.dist ≤ n2.dist := lexLt_le_dist hlex
      have h2c : n2.dist ≤ c.dist := lexLt_le_dist hl2c
      have heq2 : n1.dist = n2.dist := le_antisymm h12 (he ▸ h2c)
      have heq3 : n2.dist = c.dist := le_antisymm h2c (by rw [he, heq2])
      have hi12 : n1.coord.1 < n2.coord.1 := by
        rcases hlex with h' | ⟨_, h'⟩
        · exact absurd heq2 (ne_of_lt h')
        · exact h'
      have hi2c : n2.coord.1 < c.coord.1 := by
        rcases hl2c with h' | ⟨_, h'⟩
        · exact absurd heq3 (ne_of_lt h')
        · exact h'
      omega
    · intro he
      rcases hl2c with h' | ⟨_, h'⟩
      · exact absurd he.symm (ne_of_lt h')
      · exact h'

/-- Witness for C4 at a concrete input. -/
theorem get_neighborhood_tie_break_witness :
    2 ≤ ([(5 : ℚ), 7]).length ∧
    (∃ n1 n2 rest,
      get_neighborhood gtQ ([(5 : ℚ), 7]).enum (0 : ℚ)
          (fun p c => (fun (_ x : ℚ) => x) p c.2) =
        Neighborhood.Two n1 n2 ∧
      (([(5 : ℚ), 7]).enum.map fun c =>
        (⟨c, (fun (_ x : ℚ) => x) 0 c.2⟩ :
          NeighborDist (ℕ × ℚ) ℚ)).Perm (n1 :: n2 :: rest) ∧
      n1.dist ≤ n2.dist ∧
      (n1.dist = n2.dist → n1.coord.1 < n2.coord.1) ∧
      ∀ c ∈ rest, n2.dist ≤ c.dist ∧
        (c.dist = n1.dist → n1.coord.1 < c.coord.1) ∧
        (c.dist = n2.dist → n2.coord.1 < c.coord.1)) :=
  ⟨by norm_num,
    get_neighborhood_tie_break [(5 : ℚ), 7] 0 (fun _ x => x) (by norm_num)⟩


/-- C1: on every candidate list with at least two elements, `get_neighborhood`
returns `Two n1 n2` where `n1` and `n2` are two distinct occurrences of the
candidate list (together with `rest` they are a permutation of the mapped
candidates), carrying their own distances from the query, with
`dist q n1 ≤ dist q n2`, and every other candidate `c` satisfying
`dist q c ≥ dist q n2`. -/
theorem get_neighborhood_two_nearest {α P : Type} (l : List α) (q : P)
    (dist : P → α → ℚ) (h : 2 ≤ l.length) :
    ∃ n1 n2 rest,
      get_neighborhood gtQ l q dist = Neighborhood.Two n1 n2 ∧
      (l.map fun p => (⟨p, dist q p⟩ : NeighborDist α ℚ)).Perm
        (n1 :: n2 :: rest) ∧
      n1.dist = dist q n1.coord ∧ n2.dist = dist q n2.coord ∧
      dist q n1.coord ≤ dist q n2.coord ∧
      ∀ c ∈ rest, dist q n2.coord ≤ dist q c.coord := by
  obtain ⟨t1, t2, trest, heq, hperm, hlex, hrest⟩ :=
    get_neighborhood_enum_master l q dist h
  have hmap : ((l.enum.map fun c =>
      (⟨c, dist q c.2⟩ : NeighborDist (ℕ × α) ℚ)).map
        fun n => n.mapc Prod.snd) =
      l.map fun p => (⟨p, dist q p⟩ : NeighborDist α ℚ) := by
    rw [List.map_map]
    conv_rhs => rw [← List.enumFrom_map_snd 0 l]
    rw [List.map_map]
    rfl
  have hdist : ∀ n ∈ l.enum.map fun c =>
      (⟨c, dist q c.2⟩ : NeighborDist (ℕ × α) ℚ),
      (n.mapc Prod.snd).dist = dist q (n.mapc Prod.snd).coord := by
    intro n hn
    obtain ⟨c, _, hce⟩ := List.mem_map.mp hn
    rw [← hce]
    rfl
  have ht1 := hdist t1 (hperm.mem_iff.mpr (List.mem_cons_self _ _))
  have ht2 := hdist t2 (hperm.mem_iff.mpr
    (List.mem_cons_of_mem _ (List.mem_cons_self _ _)))
  refine ⟨t1.mapc Prod.snd, t2.mapc Prod.snd,
    trest.map fun n => n.mapc Prod.snd, ?_, ?_, ht1, ht2, ?_, ?_⟩
  · rw [get_neighborhood_enum_eq gtQ l q dist, heq]
    rfl
  · have hp := hperm.map fun n => n.mapc Prod.snd
    rw [hmap] at hp
    simpa using hp
  · rw [← ht1, ← ht2]
    exact lexLt_le_dist hlex
  · intro c hc
    obtain ⟨r, hr, hre⟩ := List.mem_map.mp hc
    have hrd := hdist r (hperm.mem_iff.mpr
      (List.mem_cons_of_mem _ (List.mem_cons_of_mem _ hr)))
    rw [← hre, ← ht2, ← hrd]
    exact lexLt_le_dist (hrest r hr)

/-- Witness for C1 at a concrete input. -/
theorem get_neighborhood_two_nearest_witness :
    2 ≤ ([(5 : ℚ), 7]).length ∧
    (∃ n1 n2 rest,
      get_neighborhood gtQ [(5 : ℚ), 7] (0 : ℚ)
          (fun (_ x : ℚ) => x) = Neighborhood.Two n1 n2 ∧
      (([(5 : ℚ), 7]).map fun p =>
        (⟨p, (fun (_ x : ℚ) => x) 0 p⟩ : NeighborDist ℚ ℚ)).Perm
        (n1 :: n2 :: rest) ∧
      n1.dist = (fun (_ x : ℚ) => x) 0 n1.coord ∧
      n2.dist = (fun (_ x : ℚ) => x) 0 n2.coord ∧
      (fun (_ x : ℚ) => x) 0 n1.coord ≤ (fun (_ x : ℚ) => x) 0 n2.coord ∧
      ∀ c ∈ rest,
        (fun (_ x : ℚ) => x) 0 n2.coord ≤ (fun (_ x : ℚ) => x) 0 c.coord) :=
  ⟨by norm_num,
    get_neighborhood_two_nearest [(5 : ℚ), 7] 0 (fun _ x => x)
      (by norm_num)⟩

/-- Witness for C6 at a concrete input. -/
theorem get_neighborhood_dist_faithful_witness :
    (⟨(3 : ℚ), 3⟩ : NeighborDist ℚ ℚ).dist =
      (fun (_ p : ℚ) => p) 0 (⟨(3 : ℚ), 3⟩ : NeighborDist ℚ ℚ).coord :=
  (get_neighborhood_dist_faithful gtQ (0 : ℚ) (fun _ p => p)).1 [3] ⟨3, 3⟩
    (by simp [get_neighborhood, fold_0, fold_1, Neighborhood.toList])

end FluentData
